import Mathlib

/-!
Verification of the tic-tac-toe core (`game.py`).

Shallow embedding of the game-state model (`Board`, `Players`, `Results`) and of
the negamax search (`Negamax`, `NegamaxResults`, `NegamaxPlayers`) of the
repository, together with proofs of the specified properties.

Python mutation is modelled by explicit state passing: every operation that
mutates the board returns the new board alongside its Python return value.
Python exceptions are modelled by `Except PyError`.
-/

/-- The Python exceptions and error sentinels that the embedded code can hit.
`notImplemented` stands for the `NotImplemented` sentinel escaping from
`NegamaxResults.__neg__`; `indexError` for indexing an empty list;
`valueError` for an `Enum(...)` lookup with an unmapped value; `typeError`
for arithmetic on `None`; `fuelOut` for exceeding the recursion bound of the
embedding (the Python recursion is unbounded; we prove the bound is never hit
from reachable states). -/
inductive PyError where
  | notImplemented
  | indexError
  | valueError
  | typeError
  | fuelOut
  deriving DecidableEq, Repr

/-- `Players`: `1` is the first player, `-1` the second, `0` an unplayed cell. -/
inductive Players where
  | player_one
  | player_two
  | unplayed
  deriving DecidableEq, Repr

/-- The numeric value of each `Players` member (`1`, `-1`, `0`). -/
def Players.value : Players → Int
  | .player_one => 1
  | .player_two => -1
  | .unplayed => 0

/-- `Players.max_line_sum`: the maximum number a row/column/diagonal sums to. -/
def Players.max_line_sum : Int := 3

/-- `Players.other_player`. On `Players.unplayed` the source returns the
`NotImplemented` sentinel; `Board` never holds `unplayed` in its turn field
(the data model's turn indicator is PlayerOne | PlayerTwo), so that branch is
unreachable and is not modelled: theorems about the turn carry the hypothesis
that the turn is a real player. On real players this is the source's
`player_two if is_player_one else player_one`. -/
def Players.other_player (current_player : Players) : Players :=
  if current_player = Players.player_one then Players.player_two
  else Players.player_one

/-- `Results`: end-of-game results. `1` is a win for player one, `-1` a win
for player two, `0` a tie; `no_win` carries Python value `None`. -/
inductive Results where
  | player_one_win
  | player_two_win
  | tie
  | no_win
  deriving DecidableEq, Repr

/-- The Python `.value` of a `Results` member; `no_win.value` is `None`,
modelled as `none`. -/
def Results.valueE : Results → Option Int
  | .player_one_win => some 1
  | .player_two_win => some (-1)
  | .tie => some 0
  | .no_win => none

/-- `Results(v)` lookup by value, as used in `check_for_win` on `v = s / 3`
with `|s| = 3`, so only `1` and `-1` ever occur.  The source raises
`ValueError` on an unmapped value; that branch is unreachable here and is
mapped to `no_win`. -/
def Results.ofValueT (v : Int) : Results :=
  if v = 1 then Results.player_one_win
  else if v = -1 then Results.player_two_win
  else if v = 0 then Results.tie
  else Results.no_win

/-- The tic-tac-toe `Board`: the 3×3 grid (`self._board`), the move stack
(`self._moves`, most recent move at the end of the list) and the player to
move (`self._player`). Coordinates are `Fin 3`, making the out-of-range
precondition violation unrepresentable. -/
structure Board where
  player : Players
  moves : List (Fin 3 × Fin 3)
  grid : Fin 3 → Fin 3 → Players

instance : DecidableEq Board := fun a b =>
  decidable_of_iff (a.player = b.player ∧ a.moves = b.moves ∧ a.grid = b.grid)
    (by cases a; cases b; simp)

/-- The board constructed by `Board.__init__`: empty grid, empty move stack,
player one to move. -/
def Board.init : Board :=
  { player := Players.player_one
    moves := []
    grid := fun _ _ => Players.unplayed }

/-- Point update of a grid, `self._board[row][column] = v`. -/
def setCell (g : Fin 3 → Fin 3 → Players) (row column : Fin 3) (v : Players) :
    Fin 3 → Fin 3 → Players :=
  fun r c => if r = row ∧ c = column then v else g r c

/-- `Board.make_move`: places the current player at `(row, column)` if that
cell is unplayed, records the move and flips the turn, returning `True`;
otherwise leaves the board unchanged and returns `False`.  The updated board
is returned alongside the Python return value. -/
def Board.make_move (b : Board) (row column : Fin 3) : Board × Bool :=
  if b.grid row column = Players.unplayed then
    ({ player := Players.other_player b.player
       moves := b.moves.concat (row, column)
       grid := setCell b.grid row column b.player }, true)
  else
    (b, false)

/-- `Board.undo_move`: pops the most recent move if any, clears that cell and
flips the turn back, returning the coordinate; on an empty stack returns the
Python `False`, modelled as `none`. -/
def Board.undo_move (b : Board) : Board × Option (Fin 3 × Fin 3) :=
  match b.moves.getLast? with
  | some m =>
      ({ player := Players.other_player b.player
         moves := b.moves.dropLast
         grid := setCell b.grid m.1 m.2 Players.unplayed }, some m)
  | none => (b, none)

/-- The nine cells in the row-major order in which `get_possible_moves` and
`_board_full` walk the board. -/
def allCells : List (Fin 3 × Fin 3) :=
  [(0, 0), (0, 1), (0, 2), (1, 0), (1, 1), (1, 2), (2, 0), (2, 1), (2, 2)]

/-- `Board.get_possible_moves`: the `(row, column)` pairs of currently
unplayed cells, in row-major order. -/
def Board.get_possible_moves (b : Board) : List (Fin 3 × Fin 3) :=
  allCells.filter (fun m => b.grid m.1 m.2 = Players.unplayed)

/-- `Board._board_full`: walks every cell, clearing the flag whenever an
unplayed cell is seen (the source keeps scanning without early exit). -/
def Board.board_full (b : Board) : Bool :=
  allCells.foldl
    (fun full m => if b.grid m.1 m.2 = Players.unplayed then false else full)
    true

/-- The sum of the three cell values of column `i`, as computed in
`check_for_win` and `get_winning_streak`. -/
def Board.colSum (b : Board) (i : Fin 3) : Int :=
  (b.grid 0 i).value + (b.grid 1 i).value + (b.grid 2 i).value

/-- The sum of the three cell values of row `i`. -/
def Board.rowSum (b : Board) (i : Fin 3) : Int :=
  (b.grid i 0).value + (b.grid i 1).value + (b.grid i 2).value

/-- One iteration of the row/column scan of `check_for_win` at index `i`:
the column is tested before the row, and a line whose sum has absolute value
`Players.max_line_sum() = 3` wins for `Results(sum / 3)`. -/
def Board.rcWin (b : Board) (i : Fin 3) : Option Results :=
  if (b.colSum i).natAbs = 3 then some (Results.ofValueT (b.colSum i / 3))
  else if (b.rowSum i).natAbs = 3 then some (Results.ofValueT (b.rowSum i / 3))
  else none

/-- The sum of the top-left to bottom-right diagonal. -/
def Board.diagTTBSum (b : Board) : Int :=
  (b.grid 0 0).value + (b.grid 1 1).value + (b.grid 2 2).value

/-- The sum of the bottom-left to top-right diagonal. -/
def Board.diagBTTSum (b : Board) : Int :=
  (b.grid 2 0).value + (b.grid 1 1).value + (b.grid 0 2).value

/-- `Board.check_for_win`: `(gameover, winner)`.  Scans indices `0..2`, per
index column first then row; then the two diagonals; then fullness (tie);
otherwise `(False, no_win)`. -/
def Board.check_for_win (b : Board) : Bool × Results :=
  match b.rcWin 0 with
  | some r => (true, r)
  | none =>
  match b.rcWin 1 with
  | some r => (true, r)
  | none =>
  match b.rcWin 2 with
  | some r => (true, r)
  | none =>
    if b.diagTTBSum.natAbs = 3 then (true, Results.ofValueT (b.diagTTBSum / 3))
    else if b.diagBTTSum.natAbs = 3 then (true, Results.ofValueT (b.diagBTTSum / 3))
    else if b.board_full then (true, Results.tie)
    else (false, Results.no_win)

/-- One iteration of the row/column scan of `get_winning_streak` at index `i`:
`zip(indices, indices2)` gives the column's coordinates, `zip(indices2,
indices)` the row's, in the same column-before-row order as `check_for_win`. -/
def Board.streakAt (b : Board) (i : Fin 3) : Option (List (Fin 3 × Fin 3)) :=
  if (b.colSum i).natAbs = 3 then some [(0, i), (1, i), (2, i)]
  else if (b.rowSum i).natAbs = 3 then some [(i, 0), (i, 1), (i, 2)]
  else none

/-- `Board.get_winning_streak`: coordinates of the winning streak, `[]` if no
win is found, scanning in the same order as `check_for_win`. -/
def Board.get_winning_streak (b : Board) : List (Fin 3 × Fin 3) :=
  match b.streakAt 0 with
  | some l => l
  | none =>
  match b.streakAt 1 with
  | some l => l
  | none =>
  match b.streakAt 2 with
  | some l => l
  | none =>
    if b.diagTTBSum.natAbs = 3 then [(0, 0), (1, 1), (2, 2)]
    else if b.diagBTTSum.natAbs = 3 then [(2, 0), (1, 1), (0, 2)]
    else []

/-- Repeated application of `make_move`; `some` exactly when every call in the
sequence succeeds. -/
def Board.playAll : Board → List (Fin 3 × Fin 3) → Option Board
  | b, [] => some b
  | b, m :: rest =>
    if (b.make_move m.1 m.2).2 then ((b.make_move m.1 m.2).1).playAll rest
    else none

/-- `NegamaxResults`: game results for the negamax algorithm.  `player = 1`,
`other_player = -1`, `tie = 0`, and the "negative infinity" sentinel
`worst = -100`. -/
inductive NegamaxResults where
  | player
  | other_player
  | tie
  | worst
  deriving DecidableEq, Repr

/-- The numeric `.value` of a `NegamaxResults` member. -/
def NegamaxResults.value : NegamaxResults → Int
  | .player => 1
  | .other_player => -1
  | .tie => 0
  | .worst => -100

/-- `NegamaxResults(v)` lookup by value. -/
def NegamaxResults.ofValue (v : Int) : Option NegamaxResults :=
  if v = 1 then some NegamaxResults.player
  else if v = -1 then some NegamaxResults.other_player
  else if v = 0 then some NegamaxResults.tie
  else if v = -100 then some NegamaxResults.worst
  else none

/-- `NegamaxResults.__neg__`: on `worst` the source returns the
`NotImplemented` sentinel (modelled as the `notImplemented` error, since every
use site immediately consumes the negation); otherwise
`NegamaxResults(-int(self.value))`. -/
def NegamaxResults.negE (r : NegamaxResults) : Except PyError NegamaxResults :=
  if r = NegamaxResults.worst then Except.error PyError.notImplemented
  else
    match NegamaxResults.ofValue (-r.value) with
    | some x => Except.ok x
    | none => Except.error PyError.valueError

/-- `NegamaxPlayers`: players and values for the negamax algorithm,
`player = 1`, `opponent = -1`. -/
inductive NegamaxPlayers where
  | player
  | opponent
  deriving DecidableEq, Repr

/-- The numeric `.value` of a `NegamaxPlayers` member. -/
def NegamaxPlayers.value : NegamaxPlayers → Int
  | .player => 1
  | .opponent => -1

/-- `NegamaxPlayers.other_player`. -/
def NegamaxPlayers.other_player (current_player : NegamaxPlayers) : NegamaxPlayers :=
  if current_player = NegamaxPlayers.player then NegamaxPlayers.opponent
  else NegamaxPlayers.player

/-- `NegamaxPlayers(player.value)`, the conversion at the top of
`get_next_move`; `unplayed` has value `0`, which is not a `NegamaxPlayers`
value, so the source would raise `ValueError` there. -/
def NegamaxPlayers.ofPlayers : Players → Except PyError NegamaxPlayers
  | Players.player_one => Except.ok NegamaxPlayers.player
  | Players.player_two => Except.ok NegamaxPlayers.opponent
  | Players.unplayed => Except.error PyError.valueError

/-- The terminal case of `Negamax._negamax`:
`result = NegamaxResults(winner.value * player.value); return (result, None)`.
`winner.value` is `None` for `no_win` (arithmetic on it would be a
`TypeError`), and an unmapped product would be a `ValueError`; both are proved
unreachable. -/
def negamaxTerminal (b : Board) (p : NegamaxPlayers) :
    Except PyError (Board × NegamaxResults × Option (Fin 3 × Fin 3)) :=
  match (b.check_for_win).2.valueE with
  | some w =>
    match NegamaxResults.ofValue (w * p.value) with
    | some r => Except.ok (b, r, none)
    | none => Except.error PyError.valueError
  | none => Except.error PyError.typeError

/-- The child loop of `Negamax._negamax`.  `rec` is the recursive call at the
next depth.  Per child: hypothetically apply the move, evaluate the child with
the negated window `(-beta, -alpha)` from the other player's perspective,
negate the child's value, update the running best and `alpha`, undo the move,
and cut off as soon as `alpha >= beta`.  All comparisons go through `.value`,
exactly as the source's dunder methods do. -/
def negaLoop
    (rec : Board → NegamaxPlayers → NegamaxResults → NegamaxResults →
      Except PyError (Board × NegamaxResults × Option (Fin 3 × Fin 3)))
    (p : NegamaxPlayers) :
    Board → List (Fin 3 × Fin 3) → NegamaxResults → NegamaxResults →
    NegamaxResults → Option (Fin 3 × Fin 3) →
    Except PyError (Board × NegamaxResults × Option (Fin 3 × Fin 3))
  | b, [], _alpha, _beta, best_value, best_move => Except.ok (b, best_value, best_move)
  | b, child :: rest, alpha, beta, best_value, best_move => do
    let b1 := (b.make_move child.1 child.2).1
    let nbeta ← beta.negE
    let nalpha ← alpha.negE
    let r ← rec b1 (NegamaxPlayers.other_player p) nbeta nalpha
    let b2 := r.1
    let child_value ← r.2.1.negE
    let bv := if child_value.value > best_value.value then child_value else best_value
    let bm := if child_value.value > best_value.value then some child else best_move
    let alpha1 := if child_value.value > alpha.value then child_value else alpha
    let b3 := (b2.undo_move).1
    if alpha1.value ≥ beta.value then Except.ok (b3, bv, bm)
    else negaLoop rec p b3 rest alpha1 beta bv bm

/-- `Negamax._negamax` with an explicit recursion bound (the Python recursion
is unbounded; each ply removes one empty cell, so any bound at least the
number of empty cells behaves exactly like the source, which is proved below).
Terminal positions are evaluated even at bound 0. -/
def negamaxFuel : Nat → Board → NegamaxPlayers → NegamaxResults → NegamaxResults →
    Except PyError (Board × NegamaxResults × Option (Fin 3 × Fin 3))
  | 0, b, p, _alpha, _beta =>
    if (b.check_for_win).1 then negamaxTerminal b p
    else Except.error PyError.fuelOut
  | fuel + 1, b, p, alpha, beta =>
    if (b.check_for_win).1 then negamaxTerminal b p
    else negaLoop (negamaxFuel fuel) p b b.get_possible_moves alpha beta
      NegamaxResults.worst none

/-- The top-level child loop of `Negamax.get_next_move`: every child is
searched with the full window `(other_player, player)`, no pruning is applied,
and all moves achieving the running maximum are collected (reset on a strictly
better value, appended on an equal one). -/
def nextMoveLoop
    (rec : Board → NegamaxPlayers → NegamaxResults → NegamaxResults →
      Except PyError (Board × NegamaxResults × Option (Fin 3 × Fin 3)))
    (p : NegamaxPlayers) :
    Board → List (Fin 3 × Fin 3) → NegamaxResults → List (Fin 3 × Fin 3) →
    Except PyError (Board × NegamaxResults × List (Fin 3 × Fin 3))
  | b, [], best_value, best_moves => Except.ok (b, best_value, best_moves)
  | b, child :: rest, best_value, best_moves => do
    let b1 := (b.make_move child.1 child.2).1
    let r ← rec b1 (NegamaxPlayers.other_player p)
      NegamaxResults.other_player NegamaxResults.player
    let b2 := r.1
    let child_value ← r.2.1.negE
    let bv := if child_value.value > best_value.value then child_value else best_value
    let bm :=
      if child_value.value > best_value.value then [child]
      else if child_value.value = best_value.value then best_moves.concat child
      else best_moves
    let b3 := (b2.undo_move).1
    nextMoveLoop rec p b3 rest bv bm

/-- `Negamax.get_next_move`.  `pick` models the outcome of
`random.randrange(len(best_moves))`: the index actually chosen is
`pick % len(best_moves)`, so quantifying over `pick` quantifies over every
possible random tie-break.  When `best_moves` is empty the source falls
through to `return best_moves[0]`, which raises `IndexError`.  The final
board state is returned alongside the chosen move. -/
def Negamax.get_next_move (b : Board) (player : Players) (pick : Nat) :
    Except PyError (Board × (Fin 3 × Fin 3)) := do
  let p ← NegamaxPlayers.ofPlayers player
  let r ← nextMoveLoop (negamaxFuel 9) p b b.get_possible_moves
    NegamaxResults.worst []
  let best_moves := r.2.2
  if h : best_moves.length ≠ 0 then
    Except.ok (r.1, best_moves.get ⟨pick % best_moves.length,
      Nat.mod_lt _ (Nat.pos_of_ne_zero h)⟩)
  else
    Except.error PyError.indexError

/-- The value that `get_next_move`'s loop computes for a top-level child `m`
of board `b` (apply the move, search the child with the full window from the
other player's perspective, negate).  Used to state which children end up in
`best_moves`. -/
def topChildValue (b : Board) (p : NegamaxPlayers) (m : Fin 3 × Fin 3) :
    Except PyError NegamaxResults := do
  let b1 := (b.make_move m.1 m.2).1
  let r ← negamaxFuel 9 b1 (NegamaxPlayers.other_player p)
    NegamaxResults.other_player NegamaxResults.player
  r.2.1.negE

instance {ε α : Type} [DecidableEq ε] [DecidableEq α] : DecidableEq (Except ε α)
  | .ok a, .ok b => decidable_of_iff (a = b) (by simp)
  | .error a, .error b => decidable_of_iff (a = b) (by simp)
  | .ok _, .error _ => isFalse (by simp)
  | .error _, .ok _ => isFalse (by simp)

/-! ### Basic facts about `Players` and the board primitives -/

lemma Players.other_player_ne_unplayed (p : Players) :
    Players.other_player p ≠ Players.unplayed := by
  unfold Players.other_player; split <;> simp

lemma Players.other_player_other_player (p : Players)
    (hp : p ≠ Players.unplayed) :
    Players.other_player (Players.other_player p) = p := by
  cases p <;> simp_all [Players.other_player]

lemma mem_allCells (m : Fin 3 × Fin 3) : m ∈ allCells := by
  obtain ⟨r, c⟩ := m
  fin_cases r <;> fin_cases c <;> simp [allCells]

lemma allCells_nodup : allCells.Nodup := by decide

/-- Successful `make_move` on an unplayed cell: the resulting state. -/
lemma make_move_success (b : Board) (row column : Fin 3)
    (hc : b.grid row column = Players.unplayed) :
    b.make_move row column =
      ({ player := Players.other_player b.player
         moves := b.moves.concat (row, column)
         grid := setCell b.grid row column b.player }, true) := by
  simp [Board.make_move, hc]

/-- `make_move` on an occupied cell leaves the board unchanged and fails. -/
lemma make_move_occupied (b : Board) (row column : Fin 3)
    (hc : b.grid row column ≠ Players.unplayed) :
    b.make_move row column = (b, false) := by
  simp [Board.make_move, hc]

/-- Undoing immediately after a successful move restores the original board
exactly (grid, turn and move stack). -/
lemma undo_make (b : Board) (row column : Fin 3)
    (hp : b.player ≠ Players.unplayed)
    (hc : b.grid row column = Players.unplayed) :
    ((b.make_move row column).1.undo_move).1 = b := by
  rw [make_move_success b row column hc]
  unfold Board.undo_move
  simp only [List.concat_eq_append, List.getLast?_concat]
  cases b with
  | mk player moves grid =>
    refine (Board.mk.injEq _ _ _ _ _ _).mpr
      ⟨Players.other_player_other_player _ hp, by simp, ?_⟩
    funext r c
    by_cases h : r = row ∧ c = column
    · obtain ⟨rfl, rfl⟩ := h
      simp only [setCell, and_self, if_true]
      exact hc.symm
    · simp [setCell, h]

/-- Membership in `get_possible_moves` is exactly "that cell is unplayed". -/
lemma mem_get_possible_moves (b : Board) (m : Fin 3 × Fin 3) :
    m ∈ b.get_possible_moves ↔ b.grid m.1 m.2 = Players.unplayed := by
  unfold Board.get_possible_moves
  rw [List.mem_filter]
  simp [mem_allCells]

lemma get_possible_moves_length_le (b : Board) :
    b.get_possible_moves.length ≤ 9 :=
  le_trans (List.length_filter_le _ _) (by simp [allCells])

/-- Generic step: filtering with a predicate falsified at exactly one list
element (present, previously satisfying) shortens the filter by one. -/
lemma filter_update_length {α : Type} [DecidableEq α] :
    ∀ (l : List α) (m : α), m ∈ l → l.Nodup →
    ∀ (p q : α → Bool), (∀ x, q x = if x = m then false else p x) → p m = true →
    (l.filter q).length + 1 = (l.filter p).length := by
  intro l
  induction l with
  | nil => intro m hm; simp at hm
  | cons a t ih =>
    intro m hm hnd p q hq hpm
    by_cases ham : a = m
    · subst ham
      have hqa : q a = false := by rw [hq]; simp
      have hnmem : a ∉ t := (List.nodup_cons.mp hnd).1
      have hfilter : t.filter q = t.filter p := by
        apply List.filter_congr
        intro x hx
        rw [hq]
        have : x ≠ a := fun hxa => hnmem (hxa ▸ hx)
        simp [this]
      simp [List.filter_cons, hqa, hpm, hfilter]
    · have hmt : m ∈ t := by
        rcases List.mem_cons.mp hm with h | h
        · exact absurd h.symm ham
        · exact h
      have hqa : q a = p a := by rw [hq]; simp [ham]
      have := ih m hmt (List.nodup_cons.mp hnd).2 p q hq hpm
      by_cases hpa : p a = true
      · simp only [List.filter_cons, hqa, hpa, if_true, List.length_cons]
        omega
      · simp at hpa
        simp only [List.filter_cons, hqa, hpa, Bool.false_eq_true, if_false]
        exact this

/-- Applying a legal move removes exactly one entry from the list of
possible moves. -/
lemma possible_moves_after_make (b : Board) (m : Fin 3 × Fin 3)
    (hp : b.player ≠ Players.unplayed)
    (hc : b.grid m.1 m.2 = Players.unplayed) :
    ((b.make_move m.1 m.2).1.get_possible_moves).length + 1 =
      b.get_possible_moves.length := by
  rw [make_move_success b m.1 m.2 hc]
  unfold Board.get_possible_moves
  apply filter_update_length allCells m (mem_allCells m) allCells_nodup
  · intro x
    by_cases hx : x = m
    · subst hx
      simp [setCell, hp]
    · have : ¬(x.1 = m.1 ∧ x.2 = m.2) := by
        intro ⟨h1, h2⟩
        exact hx (Prod.ext h1 h2)
      simp [setCell, this, hx]
  · simp [hc]

/-! ### Fullness and the win-check scan -/
/-! ### Fullness and the win-check scan -/

lemma board_full_latch (f : Fin 3 × Fin 3 → Players) :
    ∀ (l : List (Fin 3 × Fin 3)) (acc : Bool),
    (l.foldl (fun full x => if f x = Players.unplayed then false else full) acc = true
      ↔ (acc = true ∧ ∀ x ∈ l, f x ≠ Players.unplayed)) := by
  intro l
  induction l with
  | nil => simp
  | cons a t ih =>
    intro acc
    rw [List.foldl_cons, ih]
    by_cases hfa : f a = Players.unplayed <;> simp [hfa]

/-- `_board_full` is true exactly when every cell is occupied. -/
lemma board_full_iff (b : Board) :
    b.board_full = true ↔ ∀ r c : Fin 3, b.grid r c ≠ Players.unplayed := by
  unfold Board.board_full
  rw [board_full_latch (fun m => b.grid m.1 m.2) allCells true]
  simp only [true_and]
  constructor
  · intro h r c
    exact h (r, c) (mem_allCells (r, c))
  · intro h m _
    exact h m.1 m.2

/-- A board has no possible moves exactly when it is full. -/
lemma possible_moves_nil_iff (b : Board) :
    b.get_possible_moves = [] ↔ b.board_full = true := by
  rw [board_full_iff]
  constructor
  · intro h r c hrc
    have : (r, c) ∈ b.get_possible_moves := (mem_get_possible_moves b (r, c)).mpr hrc
    simp [h] at this
  · intro h
    rcases hne : b.get_possible_moves with _ | ⟨m, t⟩
    · rfl
    · have hm : m ∈ b.get_possible_moves := by rw [hne]; exact List.mem_cons_self m t
      exact absurd ((mem_get_possible_moves b m).mp hm) (h m.1 m.2)

/-! The eight lines of the board, in the exact order in which `check_for_win`
and `get_winning_streak` scan them (per index, column before row; then the
two diagonals). -/

/-- The coordinates of column `i`. -/
def lineCol (i : Fin 3) : List (Fin 3 × Fin 3) := [(0, i), (1, i), (2, i)]

/-- The coordinates of row `i`. -/
def lineRow (i : Fin 3) : List (Fin 3 × Fin 3) := [(i, 0), (i, 1), (i, 2)]

/-- The coordinates of the top-left to bottom-right diagonal. -/
def diagTTB : List (Fin 3 × Fin 3) := [(0, 0), (1, 1), (2, 2)]

/-- The coordinates of the bottom-left to top-right diagonal. -/
def diagBTT : List (Fin 3 × Fin 3) := [(2, 0), (1, 1), (0, 2)]

/-- The scan order actually used by `check_for_win` and
`get_winning_streak`: per index `0..2` the column is checked before the row,
then the two diagonals. -/
def scanLines : List (List (Fin 3 × Fin 3)) :=
  [lineCol 0, lineRow 0, lineCol 1, lineRow 1, lineCol 2, lineRow 2, diagTTB, diagBTT]

/-- The scan order asserted by the specification sentence "row-then-column
order per index 0..2" (rows and columns before diagonals, but per index the
row first).  Stated only to be compared against the source's actual order. -/
def claimedScanLines : List (List (Fin 3 × Fin 3)) :=
  [lineRow 0, lineCol 0, lineRow 1, lineCol 1, lineRow 2, lineCol 2, diagTTB, diagBTT]

/-- The sum of the cell values along a line. -/
def Board.lineSum (b : Board) (L : List (Fin 3 × Fin 3)) : Int :=
  (L.map (fun m => (b.grid m.1 m.2).value)).sum

lemma lineSum_col (b : Board) (i : Fin 3) : b.lineSum (lineCol i) = b.colSum i := by
  simp [Board.lineSum, lineCol, Board.colSum]; ring

lemma lineSum_row (b : Board) (i : Fin 3) : b.lineSum (lineRow i) = b.rowSum i := by
  simp [Board.lineSum, lineRow, Board.rowSum]; ring

lemma lineSum_ttb (b : Board) : b.lineSum diagTTB = b.diagTTBSum := by
  simp [Board.lineSum, diagTTB, Board.diagTTBSum]; ring

lemma lineSum_btt (b : Board) : b.lineSum diagBTT = b.diagBTTSum := by
  simp [Board.lineSum, diagBTT, Board.diagBTTSum]; ring

/-- The first line of the scan whose sum has absolute value 3, if any,
written as the same cascade the source uses. -/
def firstWinLine (b : Board) : Option (List (Fin 3 × Fin 3)) :=
  if (b.lineSum (lineCol 0)).natAbs = 3 then some (lineCol 0)
  else if (b.lineSum (lineRow 0)).natAbs = 3 then some (lineRow 0)
  else if (b.lineSum (lineCol 1)).natAbs = 3 then some (lineCol 1)
  else if (b.lineSum (lineRow 1)).natAbs = 3 then some (lineRow 1)
  else if (b.lineSum (lineCol 2)).natAbs = 3 then some (lineCol 2)
  else if (b.lineSum (lineRow 2)).natAbs = 3 then some (lineRow 2)
  else if (b.lineSum diagTTB).natAbs = 3 then some diagTTB
  else if (b.lineSum diagBTT).natAbs = 3 then some diagBTT
  else none

/-- `firstWinLine` is the `find?` of the winning predicate over the scan
order, i.e. really "the first winning line of the scan". -/
lemma firstWinLine_eq_find (b : Board) :
    firstWinLine b = scanLines.find? (fun L => decide ((b.lineSum L).natAbs = 3)) := by
  unfold firstWinLine scanLines
  simp only [List.find?]
  split_ifs with h1 h2 h3 h4 h5 h6 h7 h8 <;> simp [*]

/-- If the scan finds a winning line, `check_for_win` reports a win decided
by that line's sum, and `get_winning_streak` returns exactly that line. -/
lemma check_first_some (b : Board) (L : List (Fin 3 × Fin 3))
    (h : firstWinLine b = some L) :
    b.check_for_win = (true, Results.ofValueT (b.lineSum L / 3)) ∧
    b.get_winning_streak = L := by
  unfold firstWinLine at h
  simp only [lineSum_col, lineSum_row, lineSum_ttb, lineSum_btt] at h
  split_ifs at h with h1 h2 h3 h4 h5 h6 h7 h8 <;> injection h with h' <;> subst h' <;>
    simp only [lineSum_col, lineSum_row, lineSum_ttb, lineSum_btt] <;>
    constructor <;>
    simp [Board.check_for_win, Board.rcWin, Board.get_winning_streak, Board.streakAt,
      lineCol, lineRow, diagTTB, diagBTT, *]

/-- If the scan finds no winning line, `check_for_win` is decided by
fullness and `get_winning_streak` is empty. -/
lemma check_first_none (b : Board) (h : firstWinLine b = none) :
    b.check_for_win =
      (if b.board_full then (true, Results.tie) else (false, Results.no_win)) ∧
    b.get_winning_streak = [] := by
  unfold firstWinLine at h
  simp only [lineSum_col, lineSum_row, lineSum_ttb, lineSum_btt] at h
  split_ifs at h with h1 h2 h3 h4 h5 h6 h7 h8 <;> try simp at h
  constructor <;>
    simp [Board.check_for_win, Board.rcWin, Board.get_winning_streak, Board.streakAt, *]

/-! ### Facts about the search value scale -/

lemma NegamaxResults.value_le_one (r : NegamaxResults) : r.value ≤ 1 := by
  cases r <;> simp [NegamaxResults.value]

lemma NegamaxResults.ne_worst_iff (r : NegamaxResults) :
    r ≠ NegamaxResults.worst ↔ -1 ≤ r.value := by
  cases r <;> simp [NegamaxResults.value]

lemma NegamaxResults.value_inj (r s : NegamaxResults) (h : r.value = s.value) :
    r = s := by
  cases r <;> cases s <;> simp_all [NegamaxResults.value]

/-- Negation succeeds on every value except `worst`, and negates the
numeric value. -/
lemma NegamaxResults.negE_ok (r : NegamaxResults) (h : r ≠ NegamaxResults.worst) :
    ∃ cv, r.negE = Except.ok cv ∧ cv ≠ NegamaxResults.worst ∧ cv.value = -r.value := by
  cases r
  · exact ⟨NegamaxResults.other_player, by simp [NegamaxResults.negE, NegamaxResults.ofValue,
      NegamaxResults.value], by simp, by simp [NegamaxResults.value]⟩
  · exact ⟨NegamaxResults.player, by simp [NegamaxResults.negE, NegamaxResults.ofValue,
      NegamaxResults.value], by simp, by simp [NegamaxResults.value]⟩
  · exact ⟨NegamaxResults.tie, by simp [NegamaxResults.negE, NegamaxResults.ofValue,
      NegamaxResults.value], by simp, by simp [NegamaxResults.value]⟩
  · exact absurd rfl h

/-! ### The terminal case of the search -/

/-- When the game is over the reported winner carries a numeric value in
`{1, -1, 0}` (never `no_win`, whose value is `None`). -/
lemma check_winner_valueE (b : Board) (h : (b.check_for_win).1 = true) :
    ∃ w, (b.check_for_win).2.valueE = some w ∧ (w = 1 ∨ w = -1 ∨ w = 0) := by
  rcases hf : firstWinLine b with _ | L
  · obtain ⟨hc, _⟩ := check_first_none b hf
    rw [hc] at h ⊢
    by_cases hfull : b.board_full
    · simp [hfull, Results.valueE]
    · simp [hfull] at h
  · obtain ⟨hc, _⟩ := check_first_some b L hf
    have hfind := firstWinLine_eq_find b
    rw [hf] at hfind
    have hp := List.find?_some hfind.symm
    have habs : (b.lineSum L).natAbs = 3 := by simpa using hp
    rw [hc]
    rcases Int.natAbs_eq_iff.mp habs with h3 | h3 <;>
      rw [h3] <;> norm_num [Results.ofValueT, Results.valueE]

/-- The terminal evaluation of `_negamax` always succeeds with a non-`worst`
value and leaves the board untouched. -/
lemma negamaxTerminal_ok (b : Board) (p : NegamaxPlayers)
    (h : (b.check_for_win).1 = true) :
    ∃ r, negamaxTerminal b p = Except.ok (b, r, none) ∧ r ≠ NegamaxResults.worst := by
  obtain ⟨w, hw, hcases⟩ := check_winner_valueE b h
  unfold negamaxTerminal
  rw [hw]
  rcases hcases with rfl | rfl | rfl <;> cases p <;>
    simp [NegamaxResults.ofValue, NegamaxPlayers.value]

/-! ### Soundness of the bounded search -/

lemma except_bind_ok {ε α β : Type} (a : α) (f : α → Except ε β) :
    (Except.ok a : Except ε α) >>= f = f a := rfl

/-- A non-terminal board still has legal moves (it cannot be full). -/
lemma check_false_possible_ne (b : Board) (h : (b.check_for_win).1 = false) :
    b.get_possible_moves ≠ [] := by
  intro hnl
  have hfull := (possible_moves_nil_iff b).mp hnl
  rcases hf : firstWinLine b with _ | L
  · obtain ⟨hc, _⟩ := check_first_none b hf
    rw [hc] at h
    simp [hfull] at h
  · obtain ⟨hc, _⟩ := check_first_some b L hf
    rw [hc] at h
    simp at h

/-- The player after a successful move is a real player. -/
lemma make_move_player_ne (b : Board) (row column : Fin 3)
    (hc : b.grid row column = Players.unplayed) :
    ((b.make_move row column).1).player ≠ Players.unplayed := by
  rw [make_move_success b row column hc]
  exact Players.other_player_ne_unplayed _

/-- Inner loop of `_negamax`: with a real player to move, children drawn from
the legal moves, enough fuel and a `worst`-free window, the loop always
succeeds, restores the board, and (when it examined at least one child)
returns a non-`worst` best value. -/
lemma negaLoop_ok (fuel : Nat) (p : NegamaxPlayers)
    (IH : ∀ (b : Board) (q : NegamaxPlayers) (alpha beta : NegamaxResults),
      b.player ≠ Players.unplayed →
      b.get_possible_moves.length ≤ fuel →
      alpha ≠ NegamaxResults.worst → beta ≠ NegamaxResults.worst →
      ∃ v m, negamaxFuel fuel b q alpha beta = Except.ok (b, v, m) ∧
        v ≠ NegamaxResults.worst) :
    ∀ (ms : List (Fin 3 × Fin 3)) (b : Board) (alpha beta bv : NegamaxResults)
      (bm : Option (Fin 3 × Fin 3)),
      b.player ≠ Players.unplayed →
      (∀ m ∈ ms, m ∈ b.get_possible_moves) →
      b.get_possible_moves.length ≤ fuel + 1 →
      alpha ≠ NegamaxResults.worst → beta ≠ NegamaxResults.worst →
      ∃ bv2 bm2,
        negaLoop (negamaxFuel fuel) p b ms alpha beta bv bm = Except.ok (b, bv2, bm2) ∧
        (ms = [] → bv2 = bv ∧ bm2 = bm) ∧
        (ms ≠ [] → bv2 ≠ NegamaxResults.worst) := by
  intro ms
  induction ms with
  | nil =>
    intro b alpha beta bv bm _ _ _ _ _
    exact ⟨bv, bm, rfl, fun _ => ⟨rfl, rfl⟩, fun h => absurd rfl h⟩
  | cons m rest ihl =>
    intro b alpha beta bv bm hp hms hlen halpha hbeta
    have hm : m ∈ b.get_possible_moves := hms m (List.mem_cons_self m rest)
    have hcell : b.grid m.1 m.2 = Players.unplayed := (mem_get_possible_moves b m).mp hm
    have hp1 : ((b.make_move m.1 m.2).1).player ≠ Players.unplayed :=
      make_move_player_ne b m.1 m.2 hcell
    have hlen1 : ((b.make_move m.1 m.2).1).get_possible_moves.length ≤ fuel := by
      have := possible_moves_after_make b m hp hcell
      omega
    obtain ⟨nb, hnb, hnbw, _⟩ := NegamaxResults.negE_ok beta hbeta
    obtain ⟨na, hna, hnaw, _⟩ := NegamaxResults.negE_ok alpha halpha
    obtain ⟨v, mv, hrec, hvw⟩ :=
      IH ((b.make_move m.1 m.2).1) (NegamaxPlayers.other_player p) nb na hp1 hlen1 hnbw hnaw
    obtain ⟨cv, hcv, hcvw, hcvv⟩ := NegamaxResults.negE_ok v hvw
    have hcvlow : (-1 : Int) ≤ cv.value := (NegamaxResults.ne_worst_iff cv).mp hcvw
    have hundo : (((b.make_move m.1 m.2).1).undo_move).1 = b := undo_make b m.1 m.2 hp hcell
    have hbv1 : (if cv.value > bv.value then cv else bv) ≠ NegamaxResults.worst := by
      by_cases hgt : cv.value > bv.value
      · simpa [hgt] using hcvw
      · have : (-1 : Int) ≤ bv.value := by omega
        simpa [hgt] using (NegamaxResults.ne_worst_iff bv).mpr this
    have halpha1 : (if cv.value > alpha.value then cv else alpha) ≠ NegamaxResults.worst := by
      by_cases hgt : cv.value > alpha.value
      · simpa [hgt] using hcvw
      · simpa [hgt] using halpha
    by_cases hcut : (if cv.value > alpha.value then cv else alpha).value ≥ beta.value
    · refine ⟨if cv.value > bv.value then cv else bv,
        if cv.value > bv.value then some m else bm, ?_, ?_, ?_⟩
      · simp only [negaLoop, hnb, except_bind_ok, hna, hrec, hcv, hundo]
        rw [if_pos hcut]
      · intro h; exact absurd h (by simp)
      · intro _; exact hbv1
    · obtain ⟨bv2, bm2, heq, hnil, hne⟩ :=
        ihl b (if cv.value > alpha.value then cv else alpha) beta
          (if cv.value > bv.value then cv else bv)
          (if cv.value > bv.value then some m else bm)
          hp (fun x hx => hms x (List.mem_cons_of_mem m hx)) hlen halpha1 hbeta
      refine ⟨bv2, bm2, ?_, ?_, ?_⟩
      · simp only [negaLoop, hnb, except_bind_ok, hna, hrec, hcv, hundo]
        rw [if_neg hcut]
        exact heq
      · intro h; exact absurd h (by simp)
      · intro _
        rcases rest with _ | ⟨x, xs⟩
        · obtain ⟨h1, _⟩ := hnil rfl
          rw [h1]
          exact hbv1
        · exact hne (by simp)

/-- Master soundness of the bounded `_negamax`: on a board whose turn is a
real player, with fuel at least the number of legal moves and a `worst`-free
window, the search succeeds, restores the board exactly, and returns a
non-`worst` value — so the recursion never errors and in particular never
negates `worst`. -/
lemma negamaxFuel_ok :
    ∀ (fuel : Nat) (b : Board) (p : NegamaxPlayers) (alpha beta : NegamaxResults),
      b.player ≠ Players.unplayed →
      b.get_possible_moves.length ≤ fuel →
      alpha ≠ NegamaxResults.worst → beta ≠ NegamaxResults.worst →
      ∃ v m, negamaxFuel fuel b p alpha beta = Except.ok (b, v, m) ∧
        v ≠ NegamaxResults.worst := by
  intro fuel
  induction fuel with
  | zero =>
    intro b p alpha beta hp hlen _ _
    have hnil : b.get_possible_moves = [] := List.length_eq_zero.mp (Nat.le_zero.mp hlen)
    have hfull := (possible_moves_nil_iff b).mp hnil
    have hcheck : (b.check_for_win).1 = true := by
      rcases hf : firstWinLine b with _ | L
      · obtain ⟨hc, _⟩ := check_first_none b hf
        rw [hc]
        simp [hfull]
      · obtain ⟨hc, _⟩ := check_first_some b L hf
        rw [hc]
    obtain ⟨r, hr, hrw⟩ := negamaxTerminal_ok b p hcheck
    exact ⟨r, none, by simp [negamaxFuel, hcheck, hr], hrw⟩
  | succ fuel ihf =>
    intro b p alpha beta hp hlen halpha hbeta
    by_cases hcheck : (b.check_for_win).1 = true
    · obtain ⟨r, hr, hrw⟩ := negamaxTerminal_ok b p hcheck
      exact ⟨r, none, by simp [negamaxFuel, hcheck, hr], hrw⟩
    · have hb : (b.check_for_win).1 = false := by simpa using hcheck
      have hne : b.get_possible_moves ≠ [] := check_false_possible_ne b hb
      obtain ⟨bv2, bm2, heq, _, hnemp⟩ :=
        negaLoop_ok fuel p ihf b.get_possible_moves b alpha beta
          NegamaxResults.worst none hp (fun _ h => h) hlen halpha hbeta
      exact ⟨bv2, bm2, by simp [negamaxFuel, hb, heq], hnemp hne⟩

lemma mem_concat_iff {α : Type} (x b : α) (l : List α) :
    x ∈ l.concat b ↔ x ∈ l ∨ x = b := by
  rw [List.concat_eq_append]
  simp

/-- Soundness and completeness of `get_next_move`'s top-level loop: it always
succeeds and restores the board; the best value only grows and stays bounded
by 1; every collected move comes from the accumulator or the children; the
accumulator survives if the best value did not change; and every
child achieving the final best value is collected.  `topChildValue` names the
value the loop computes for each child. -/
lemma nextMoveLoop_ok (p : NegamaxPlayers) :
    ∀ (ms : List (Fin 3 × Fin 3)) (b : Board) (bv : NegamaxResults)
      (bm : List (Fin 3 × Fin 3)),
      b.player ≠ Players.unplayed →
      (∀ m ∈ ms, m ∈ b.get_possible_moves) →
      ∃ bv2 bm2,
        nextMoveLoop (negamaxFuel 9) p b ms bv bm = Except.ok (b, bv2, bm2) ∧
        bv.value ≤ bv2.value ∧
        (bv.value ≤ 1 → bv2.value ≤ 1) ∧
        (∀ x ∈ bm2, x ∈ bm ∨ x ∈ ms) ∧
        (∀ x ∈ bm, bv2 = bv → x ∈ bm2) ∧
        (bv2 ≠ bv → ∃ y ∈ ms, y ∈ bm2) ∧
        (∀ m ∈ ms, ∀ cv, topChildValue b p m = Except.ok cv →
          cv.value ≤ bv2.value ∧ (cv = bv2 → m ∈ bm2)) := by
  intro ms
  induction ms with
  | nil =>
    intro b bv bm _ _
    refine ⟨bv, bm, rfl, le_refl _, fun h => h, fun x hx => Or.inl hx,
      fun x hx _ => hx, fun h => absurd rfl h, ?_⟩
    intro m hm
    simp at hm
  | cons m rest ihl =>
    intro b bv bm hp hms
    have hm : m ∈ b.get_possible_moves := hms m (List.mem_cons_self m rest)
    have hcell : b.grid m.1 m.2 = Players.unplayed := (mem_get_possible_moves b m).mp hm
    have hp1 : ((b.make_move m.1 m.2).1).player ≠ Players.unplayed :=
      make_move_player_ne b m.1 m.2 hcell
    obtain ⟨v, mv, hrec, hvw⟩ :=
      negamaxFuel_ok 9 ((b.make_move m.1 m.2).1) (NegamaxPlayers.other_player p)
        NegamaxResults.other_player NegamaxResults.player hp1
        (get_possible_moves_length_le _) (by decide) (by decide)
    obtain ⟨cv, hcv, hcvw, hcvv⟩ := NegamaxResults.negE_ok v hvw
    have hcvle : cv.value ≤ 1 := NegamaxResults.value_le_one cv
    have hcvlow : (-1 : Int) ≤ cv.value := (NegamaxResults.ne_worst_iff cv).mp hcvw
    have hundo : (((b.make_move m.1 m.2).1).undo_move).1 = b := undo_make b m.1 m.2 hp hcell
    have htop : topChildValue b p m = Except.ok cv := by
      simp only [topChildValue, hrec, except_bind_ok, hcv]
    obtain ⟨bv2, bm2, ih1, ih2, ih3, ih4, ih5, ih6, ih7⟩ :=
      ihl b (if cv.value > bv.value then cv else bv)
        (if cv.value > bv.value then [m]
         else if cv.value = bv.value then bm.concat m else bm)
        hp (fun x hx => hms x (List.mem_cons_of_mem m hx))
    have hstep_le : bv.value ≤ (if cv.value > bv.value then cv else bv).value := by
      by_cases hgt : cv.value > bv.value <;> simp [hgt] <;> omega
    have hcv_le_step : cv.value ≤ (if cv.value > bv.value then cv else bv).value := by
      by_cases hgt : cv.value > bv.value <;> simp [hgt] <;> omega
    refine ⟨bv2, bm2, ?_, ?_, ?_, ?_, ?_, ?_, ?_⟩
    · simp only [nextMoveLoop, hrec, except_bind_ok, hcv, hundo]
      exact ih1
    · exact le_trans hstep_le ih2
    · intro hb1
      apply ih3
      by_cases hgt : cv.value > bv.value <;> simp [hgt] <;> omega
    · intro x hx
      rcases ih4 x hx with hx1 | hx2
      · by_cases hgt : cv.value > bv.value
        · rw [if_pos hgt] at hx1
          simp at hx1
          exact Or.inr (by simp [hx1])
        · rw [if_neg hgt] at hx1
          by_cases heq : cv.value = bv.value
          · rw [if_pos heq] at hx1
            rcases (mem_concat_iff x m bm).mp hx1 with h | h
            · exact Or.inl h
            · exact Or.inr (by simp [h])
          · rw [if_neg heq] at hx1
            exact Or.inl hx1
      · exact Or.inr (List.mem_cons_of_mem m hx2)
    · intro x hx hbv2
      by_cases hgt : cv.value > bv.value
      · exfalso
        have h1 : (if cv.value > bv.value then cv else bv).value ≤ bv2.value := ih2
        rw [if_pos hgt] at h1
        rw [hbv2] at h1
        omega
      · apply ih5 x ?_ (by rw [hbv2, if_neg hgt])
        by_cases heq : cv.value = bv.value
        · simp only [if_neg hgt, if_pos heq]
          exact (mem_concat_iff x m bm).mpr (Or.inl hx)
        · simp only [if_neg hgt, if_neg heq]
          exact hx
    · intro hne
      by_cases hagree : bv2 = (if cv.value > bv.value then cv else bv)
      · have hgt : cv.value > bv.value := by
          by_contra hgt
          rw [if_neg hgt] at hagree
          exact hne hagree
        refine ⟨m, List.mem_cons_self m rest, ?_⟩
        apply ih5 m ?_ hagree
        rw [if_pos hgt]
        exact List.mem_singleton.mpr rfl
      · obtain ⟨y, hy1, hy2⟩ := ih6 hagree
        exact ⟨y, List.mem_cons_of_mem m hy1, hy2⟩
    · intro m1 hm1 cv1 htop1
      rcases List.mem_cons.mp hm1 with rfl | hm1rest
      · rw [htop] at htop1
        injection htop1 with hcc
        subst hcc
        constructor
        · exact le_trans hcv_le_step ih2
        · intro hcvbv2
          by_cases hagree : bv2 = (if cv.value > bv.value then cv else bv)
          · apply ih5 m1 ?_ hagree
            by_cases hgt : cv.value > bv.value
            · rw [if_pos hgt]
              exact List.mem_singleton.mpr rfl
            · have heq : cv.value = bv.value := by
                rw [hagree, if_neg hgt] at hcvbv2
                rw [hcvbv2]
              simp only [if_neg hgt, if_pos heq]
              exact (mem_concat_iff m1 m1 bm).mpr (Or.inr rfl)
          · exfalso
            apply hagree
            apply NegamaxResults.value_inj
            have h1 : (if cv.value > bv.value then cv else bv).value ≤ bv2.value := ih2
            have h3 : cv.value = bv2.value := by rw [hcvbv2]
            have h2 : cv.value ≤ (if cv.value > bv.value then cv else bv).value :=
              hcv_le_step
            omega
      · exact ih7 m1 hm1rest cv1 htop1

/-- Every legal child of a well-turned board gets a well-defined, non-`worst`
top-level value. -/
lemma topChildValue_ok (b : Board) (p : NegamaxPlayers) (m : Fin 3 × Fin 3)
    (hp : b.player ≠ Players.unplayed) (hm : m ∈ b.get_possible_moves) :
    ∃ cv, topChildValue b p m = Except.ok cv ∧ cv ≠ NegamaxResults.worst := by
  have hcell := (mem_get_possible_moves b m).mp hm
  have hp1 := make_move_player_ne b m.1 m.2 hcell
  obtain ⟨v, mv, hrec, hvw⟩ :=
    negamaxFuel_ok 9 ((b.make_move m.1 m.2).1) (NegamaxPlayers.other_player p)
      NegamaxResults.other_player NegamaxResults.player hp1
      (get_possible_moves_length_le _) (by decide) (by decide)
  obtain ⟨cv, hcv, hcvw, _⟩ := NegamaxResults.negE_ok v hvw
  exact ⟨cv, by simp only [topChildValue, hrec, except_bind_ok, hcv], hcvw⟩

/-- A terminal board is evaluated by the terminal case regardless of the
remaining bound. -/
lemma negamaxFuel_terminal_eq (fuel : Nat) (b : Board) (p : NegamaxPlayers)
    (alpha beta : NegamaxResults) (h : (b.check_for_win).1 = true) :
    negamaxFuel fuel b p alpha beta = negamaxTerminal b p := by
  cases fuel <;> simp [negamaxFuel, h]

/-- The `Results` value naming `p` as the winner. -/
def Results.winFor : Players → Results
  | Players.player_one => Results.player_one_win
  | Players.player_two => Results.player_two_win
  | Players.unplayed => Results.no_win

/-- A move that immediately wins for the player to move is valued `Win`
(`NegamaxResults.player`) by the top-level loop. -/
lemma topChildValue_immediate_win (b : Board) (m : Fin 3 × Fin 3)
    (q : NegamaxPlayers)
    (hq : NegamaxPlayers.ofPlayers b.player = Except.ok q)
    (hwin : ((b.make_move m.1 m.2).1).check_for_win = (true, Results.winFor b.player)) :
    topChildValue b q m = Except.ok NegamaxResults.player := by
  have h1 : (((b.make_move m.1 m.2).1).check_for_win).1 = true := by rw [hwin]
  have hterm : negamaxTerminal ((b.make_move m.1 m.2).1) (NegamaxPlayers.other_player q) =
      Except.ok ((b.make_move m.1 m.2).1, NegamaxResults.other_player, none) := by
    unfold negamaxTerminal
    rw [hwin]
    cases hbp : b.player
    · rw [hbp] at hq
      simp only [NegamaxPlayers.ofPlayers, Except.ok.injEq] at hq
      subst hq
      simp [Results.winFor, Results.valueE, NegamaxPlayers.other_player,
        NegamaxPlayers.value, NegamaxResults.ofValue]
    · rw [hbp] at hq
      simp only [NegamaxPlayers.ofPlayers, Except.ok.injEq] at hq
      subst hq
      simp [Results.winFor, Results.valueE, NegamaxPlayers.other_player,
        NegamaxPlayers.value, NegamaxResults.ofValue]
    · rw [hbp] at hq
      simp [NegamaxPlayers.ofPlayers] at hq
  simp only [topChildValue]
  rw [negamaxFuel_terminal_eq 9 _ _ _ _ h1, hterm, except_bind_ok]
  rfl

/-- A successful move flips the turn. -/
lemma make_move_true_player (b : Board) (row column : Fin 3)
    (h : (b.make_move row column).2 = true) :
    ((b.make_move row column).1).player = Players.other_player b.player := by
  by_cases hc : b.grid row column = Players.unplayed
  · rw [make_move_success b row column hc]
  · rw [make_move_occupied b row column hc] at h
    simp at h

/-- A successful undo flips the turn. -/
lemma undo_move_some_player (b b2 : Board) (m : Fin 3 × Fin 3)
    (h : b.undo_move = (b2, some m)) :
    b2.player = Players.other_player b.player := by
  unfold Board.undo_move at h
  rcases hl : b.moves.getLast? with _ | m1 <;> rw [hl] at h
  · simp at h
  · simp only [Prod.mk.injEq] at h
    rw [← h.1]

/-- Turn parity along any successful play sequence. -/
lemma playAll_player :
    ∀ (ms : List (Fin 3 × Fin 3)) (b b2 : Board), b.player ≠ Players.unplayed →
      b.playAll ms = some b2 →
      b2.player = (if ms.length % 2 = 0 then b.player else Players.other_player b.player) := by
  intro ms
  induction ms with
  | nil =>
    intro b b2 _ h
    simp only [Board.playAll, Option.some.injEq] at h
    subst h
    simp
  | cons m rest ih =>
    intro b b2 hp h
    unfold Board.playAll at h
    by_cases hok : (b.make_move m.1 m.2).2 = true
    · rw [if_pos hok] at h
      have hpl1 : ((b.make_move m.1 m.2).1).player = Players.other_player b.player :=
        make_move_true_player b m.1 m.2 hok
      have hne1 : ((b.make_move m.1 m.2).1).player ≠ Players.unplayed := by
        rw [hpl1]
        exact Players.other_player_ne_unplayed _
      have hrec := ih ((b.make_move m.1 m.2).1) b2 hne1 h
      rw [hpl1] at hrec
      by_cases h2 : rest.length % 2 = 0
      · have h3 : (m :: rest).length % 2 = 1 := by simp [List.length_cons]; omega
        rw [hrec, if_pos h2, h3]
        simp
      · have h3 : (m :: rest).length % 2 = 0 := by simp [List.length_cons]; omega
        rw [hrec, if_neg h2, h3]
        simp [Players.other_player_other_player b.player hp]
    · rw [if_neg hok] at h
      simp at h

/-! ### Concrete boards used as witnesses and counterexamples -/

/-- A grid literal listing the nine cells in row-major order. -/
def mkGrid (a00 a01 a02 a10 a11 a12 a20 a21 a22 : Players) :
    Fin 3 → Fin 3 → Players :=
  fun r c =>
    if r = 0 then (if c = 0 then a00 else if c = 1 then a01 else a02)
    else if r = 1 then (if c = 0 then a10 else if c = 1 then a11 else a12)
    else (if c = 0 then a20 else if c = 1 then a21 else a22)

/-- A completely filled board (X O X / O X O / X O X). -/
def fullBoard : Board where
  player := Players.player_two
  moves := [(0, 0), (0, 1), (0, 2), (1, 0), (1, 1), (1, 2), (2, 0), (2, 1), (2, 2)]
  grid := mkGrid Players.player_one Players.player_two Players.player_one
    Players.player_two Players.player_one Players.player_two
    Players.player_one Players.player_two Players.player_one

/-- Position reached by X(0,0) O(1,2) X(0,1) O(2,1), X to move: X has the
immediate win (0,2) on row 0, but several other moves also force a win
without ending the game at once. -/
def c2Board : Board where
  player := Players.player_one
  moves := [(0, 0), (1, 2), (0, 1), (2, 1)]
  grid := mkGrid Players.player_one Players.player_one Players.unplayed
    Players.unplayed Players.unplayed Players.player_two
    Players.unplayed Players.player_two Players.unplayed

/-- A grid on which both players have a completed line (row 0 for X, row 1
for O); representable in the data model and reachable by continuing play
past a win. -/
def c4Board : Board where
  player := Players.player_one
  moves := []
  grid := mkGrid Players.player_one Players.player_one Players.player_one
    Players.player_two Players.player_two Players.player_two
    Players.unplayed Players.unplayed Players.unplayed

/-- A grid on which both row 0 and column 0 are filled by X. -/
def c5Board : Board where
  player := Players.player_two
  moves := []
  grid := mkGrid Players.player_one Players.player_one Players.player_one
    Players.player_one Players.unplayed Players.unplayed
    Players.player_one Players.unplayed Players.unplayed

/-- A full board with no three-in-a-row (X O X / X O X / O X O): a tie. -/
def tieBoard : Board where
  player := Players.player_two
  moves := []
  grid := mkGrid Players.player_one Players.player_two Players.player_one
    Players.player_one Players.player_two Players.player_one
    Players.player_two Players.player_one Players.player_two

/-- The tie board with cell (2,2) still open: exactly one legal move. -/
def oneMoveBoard : Board where
  player := Players.player_one
  moves := []
  grid := mkGrid Players.player_one Players.player_two Players.player_one
    Players.player_one Players.player_two Players.player_one
    Players.player_two Players.player_one Players.unplayed

/-- A board whose only content is O filling row 0. -/
def oWinBoard : Board where
  player := Players.player_one
  moves := []
  grid := mkGrid Players.player_two Players.player_two Players.player_two
    Players.unplayed Players.unplayed Players.unplayed
    Players.unplayed Players.unplayed Players.unplayed

lemma except_bind_error {ε α β : Type} (e : ε) (f : α → Except ε β) :
    (Except.error e : Except ε α) >>= f = Except.error e := rfl

/-! ### The claims -/

/-- C6: applying a move to an occupied cell fails and leaves the board
exactly unchanged; applying it to an unplayed cell fully succeeds, setting
the cell to the mover, pushing the move, and flipping the turn — there is no
partial-failure state. -/
theorem c6_make_move_atomic (b : Board) (row column : Fin 3) :
    (b.grid row column ≠ Players.unplayed → b.make_move row column = (b, false)) ∧
    (b.grid row column = Players.unplayed →
      (b.make_move row column).2 = true ∧
      ((b.make_move row column).1).grid row column = b.player ∧
      (∀ r c : Fin 3, ¬(r = row ∧ c = column) →
        ((b.make_move row column).1).grid r c = b.grid r c) ∧
      ((b.make_move row column).1).moves = b.moves.concat (row, column) ∧
      ((b.make_move row column).1).player = Players.other_player b.player) := by
  constructor
  · intro hc
    exact make_move_occupied b row column hc
  · intro hc
    rw [make_move_success b row column hc]
    refine ⟨rfl, by simp [setCell], ?_, rfl, rfl⟩
    intro r c hrc
    simp [setCell, hrc]

theorem c6_witness :
    fullBoard.make_move 0 0 = (fullBoard, false) ∧
    (Board.init.make_move 0 0).2 = true ∧
    ((Board.init.make_move 0 0).1).grid 0 0 = Board.init.player ∧
    ((Board.init.make_move 0 0).1).moves = Board.init.moves.concat (0, 0) ∧
    ((Board.init.make_move 0 0).1).player = Players.other_player Board.init.player :=
  ⟨(c6_make_move_atomic fullBoard 0 0).1 (by decide),
   ((c6_make_move_atomic Board.init 0 0).2 (by decide)).1,
   ((c6_make_move_atomic Board.init 0 0).2 (by decide)).2.1,
   ((c6_make_move_atomic Board.init 0 0).2 (by decide)).2.2.2.1,
   ((c6_make_move_atomic Board.init 0 0).2 (by decide)).2.2.2.2⟩

/-- C7: undoing immediately after a successful, legal `make_move` restores a
board equal to the original in grid, turn and move stack (hence stack
depth). -/
theorem c7_undo_inverse_of_make (b : Board) (row column : Fin 3)
    (hp : b.player ≠ Players.unplayed)
    (hc : b.grid row column = Players.unplayed) :
    ((b.make_move row column).1.undo_move).1 = b :=
  undo_make b row column hp hc

theorem c7_witness : ((Board.init.make_move 1 1).1.undo_move).1 = Board.init :=
  c7_undo_inverse_of_make Board.init 1 1 (by decide) (by decide)

/-- C8: after `n` successful moves from the empty board the player to move
is PlayerOne exactly when `n` is even; and each successful `make_move` and
each successful `undo_move` flips the turn indicator exactly once. -/
theorem c8_turn_alternation :
    (∀ (ms : List (Fin 3 × Fin 3)) (b2 : Board), Board.init.playAll ms = some b2 →
      b2.player =
        (if ms.length % 2 = 0 then Players.player_one else Players.player_two)) ∧
    (∀ (b : Board) (row column : Fin 3), b.player ≠ Players.unplayed →
      (b.make_move row column).2 = true →
      ((b.make_move row column).1).player = Players.other_player b.player) ∧
    (∀ (b b2 : Board) (m : Fin 3 × Fin 3), b.undo_move = (b2, some m) →
      b2.player = Players.other_player b.player) := by
  refine ⟨?_, ?_, ?_⟩
  · intro ms b2 h
    have := playAll_player ms Board.init b2 (by decide) h
    by_cases hpar : ms.length % 2 = 0
    · rw [if_pos hpar] at this ⊢
      rw [this]
      rfl
    · rw [if_neg hpar] at this ⊢
      rw [this]
      rfl
  · intro b row column _ h
    exact make_move_true_player b row column h
  · intro b b2 m h
    exact undo_move_some_player b b2 m h

theorem c8_witness :
    ((Board.init.make_move 0 0).1).player =
      (if ([((0 : Fin 3), (0 : Fin 3))].length % 2 = 0) then Players.player_one
       else Players.player_two) ∧
    ((Board.init.make_move 0 0).1).player = Players.other_player Board.init.player ∧
    (((Board.init.make_move 0 0).1.undo_move).1).player =
      Players.other_player ((Board.init.make_move 0 0).1).player :=
  ⟨c8_turn_alternation.1 [(0, 0)] (Board.init.make_move 0 0).1 (by decide),
   c8_turn_alternation.2.1 Board.init 0 0 (by decide) (by decide),
   c8_turn_alternation.2.2 (Board.init.make_move 0 0).1
     ((Board.init.make_move 0 0).1.undo_move).1 (0, 0) (by decide)⟩

/-- C1 (code bug): when `get_possible_moves()` is empty, `get_next_move`
does not return a "no move" result: the loop leaves `best_moves` empty, the
`if len(best_moves)` guard falls through, and `return best_moves[0]` raises
`IndexError`. -/
theorem c1_no_moves_raises (b : Board) (player : Players) (pick : Nat)
    (hpl : player ≠ Players.unplayed)
    (h : b.get_possible_moves = []) :
    Negamax.get_next_move b player pick = Except.error PyError.indexError := by
  cases player
  · simp [Negamax.get_next_move, NegamaxPlayers.ofPlayers, except_bind_ok, h, nextMoveLoop]
  · simp [Negamax.get_next_move, NegamaxPlayers.ofPlayers, except_bind_ok, h, nextMoveLoop]
  · exact absurd rfl hpl

theorem c1_witness :
    fullBoard.get_possible_moves = [] ∧
    Negamax.get_next_move fullBoard Players.player_one 0 =
      Except.error PyError.indexError :=
  ⟨by decide,
   c1_no_moves_raises fullBoard Players.player_one 0 (by decide) (by decide)⟩

/-- C9: under the data-model invariant that the board's turn holds a real
player, no call to `get_next_move` ever negates the sentinel `worst`: the
`NotImplemented` branch of `__neg__` is unreachable, whatever the board,
player argument and tie-break. -/
theorem c9_never_negates_worst (b : Board) (player : Players) (pick : Nat)
    (hp : b.player ≠ Players.unplayed) :
    Negamax.get_next_move b player pick ≠ Except.error PyError.notImplemented := by
  cases player with
  | unplayed =>
    simp [Negamax.get_next_move, NegamaxPlayers.ofPlayers, except_bind_error]
  | player_one =>
    obtain ⟨bv2, bm2, heq, _⟩ :=
      nextMoveLoop_ok NegamaxPlayers.player b.get_possible_moves b
        NegamaxResults.worst [] hp (fun _ hx => hx)
    simp only [Negamax.get_next_move, NegamaxPlayers.ofPlayers, except_bind_ok, heq]
    by_cases hlen : bm2.length ≠ 0
    · rw [dif_pos hlen]
      simp
    · rw [dif_neg hlen]
      simp
  | player_two =>
    obtain ⟨bv2, bm2, heq, _⟩ :=
      nextMoveLoop_ok NegamaxPlayers.opponent b.get_possible_moves b
        NegamaxResults.worst [] hp (fun _ hx => hx)
    simp only [Negamax.get_next_move, NegamaxPlayers.ofPlayers, except_bind_ok, heq]
    by_cases hlen : bm2.length ≠ 0
    · rw [dif_pos hlen]
      simp
    · rw [dif_neg hlen]
      simp

theorem c9_witness :
    Board.init.player ≠ Players.unplayed ∧
    Negamax.get_next_move Board.init Players.player_one 0 ≠
      Except.error PyError.notImplemented :=
  ⟨by decide, c9_never_negates_worst Board.init Players.player_one 0 (by decide)⟩

/-- C3: on a non-terminal board with the turn held by a real player,
`get_next_move` succeeds and returns the board in exactly its original
state (same grid, same turn, same move stack). -/
theorem c3_search_board_purity (b : Board) (player : Players) (pick : Nat)
    (hterm : (b.check_for_win).1 = false)
    (hp : b.player ≠ Players.unplayed)
    (hpl : player ≠ Players.unplayed) :
    ∃ mv, Negamax.get_next_move b player pick = Except.ok (b, mv) := by
  obtain ⟨q, hq⟩ : ∃ q, NegamaxPlayers.ofPlayers player = Except.ok q := by
    cases player
    · exact ⟨NegamaxPlayers.player, rfl⟩
    · exact ⟨NegamaxPlayers.opponent, rfl⟩
    · exact absurd rfl hpl
  obtain ⟨bv2, bm2, heq, _, _, _, _, hchanged, htopall⟩ :=
    nextMoveLoop_ok q b.get_possible_moves b NegamaxResults.worst [] hp (fun _ hx => hx)
  have hne : b.get_possible_moves ≠ [] := check_false_possible_ne b hterm
  obtain ⟨m0, hm0⟩ := List.exists_mem_of_ne_nil _ hne
  obtain ⟨cv0, htop0, hcv0w⟩ := topChildValue_ok b q m0 hp hm0
  have h1 := (htopall m0 hm0 cv0 htop0).1
  have hbv2w : bv2 ≠ NegamaxResults.worst := by
    rw [NegamaxResults.ne_worst_iff]
    have := (NegamaxResults.ne_worst_iff cv0).mp hcv0w
    omega
  obtain ⟨y, hy1, hy2⟩ := hchanged hbv2w
  have hlen : bm2.length ≠ 0 := by
    intro h0
    rw [List.length_eq_zero] at h0
    subst h0
    simp at hy2
  refine ⟨bm2.get ⟨pick % bm2.length, Nat.mod_lt _ (Nat.pos_of_ne_zero hlen)⟩, ?_⟩
  simp only [Negamax.get_next_move, hq, except_bind_ok, heq]
  rw [dif_pos hlen]

theorem c3_witness :
    (Board.init.check_for_win).1 = false ∧
    ∃ mv, Negamax.get_next_move Board.init Players.player_one 0 =
      Except.ok (Board.init, mv) :=
  ⟨by decide,
   c3_search_board_purity Board.init Players.player_one 0 (by decide) (by decide)
     (by decide)⟩

/-- C10: whatever the random tie-break, a move returned by `get_next_move`
is always one of `get_possible_moves()` of the input board: an in-range
coordinate whose cell is unplayed. -/
theorem c10_returned_move_is_legal (b : Board) (player : Players) (pick : Nat)
    (b2 : Board) (mv : Fin 3 × Fin 3)
    (hp : b.player ≠ Players.unplayed)
    (hne : b.get_possible_moves ≠ [])
    (h : Negamax.get_next_move b player pick = Except.ok (b2, mv)) :
    mv ∈ b.get_possible_moves := by
  obtain ⟨q, hq⟩ : ∃ q, NegamaxPlayers.ofPlayers player = Except.ok q := by
    cases player
    · exact ⟨NegamaxPlayers.player, rfl⟩
    · exact ⟨NegamaxPlayers.opponent, rfl⟩
    · simp [Negamax.get_next_move, NegamaxPlayers.ofPlayers, except_bind_error] at h
  obtain ⟨bv2, bm2, heq, _, _, hsub, _, _, _⟩ :=
    nextMoveLoop_ok q b.get_possible_moves b NegamaxResults.worst [] hp (fun _ hx => hx)
  simp only [Negamax.get_next_move, hq, except_bind_ok, heq] at h
  by_cases hlen : bm2.length ≠ 0
  · rw [dif_pos hlen] at h
    injection h with h2
    have hmv : mv = bm2.get ⟨pick % bm2.length, Nat.mod_lt _ (Nat.pos_of_ne_zero hlen)⟩ := by
      have := congrArg Prod.snd h2
      simpa using this.symm
    rw [hmv]
    rcases hsub _ (List.get_mem bm2 _ _) with hx | hx
    · simp at hx
    · exact hx
  · rw [dif_neg hlen] at h
    simp at h

theorem c10_witness :
    Negamax.get_next_move oneMoveBoard Players.player_one 0 =
      Except.ok (oneMoveBoard, ((2 : Fin 3), (2 : Fin 3))) ∧
    ((2 : Fin 3), (2 : Fin 3)) ∈ oneMoveBoard.get_possible_moves :=
  ⟨by decide,
   c10_returned_move_is_legal oneMoveBoard Players.player_one 0 oneMoveBoard
     ((2 : Fin 3), (2 : Fin 3)) (by decide) (by decide) (by decide)⟩

/-- C2 counterexample: on `c2Board` (X to move, 4 stones played) X has the
immediate winning move (0,2), yet under tie-break index 1 `get_next_move`
returns (1,0) (an equally valued, merely *forced* win), and applying (1,0)
does not end the game — refuting "every returnable move immediately wins". -/
theorem c2_counterexample :
    c2Board.player = Players.player_one ∧
    ((c2Board.make_move 0 2).1).check_for_win = (true, Results.player_one_win) ∧
    Negamax.get_next_move c2Board Players.player_one 1 =
      Except.ok (c2Board, ((1 : Fin 3), (0 : Fin 3))) ∧
    (((c2Board.make_move 1 0).1).check_for_win).1 = false := by
  exact ⟨rfl, by decide, by decide, by decide⟩

/-- C2 (amended): *every* immediate winning move `m0` of the player to move
is among the candidate moves `get_next_move` collects: there is a tie-break
choice under which `get_next_move` returns exactly `m0` (with the board
unchanged), and applying it wins by hypothesis.  Every candidate shares the
maximal value, but a candidate need not itself end the game at once
(`c2_counterexample`). -/
theorem c2_amended_immediate_win_returnable (b : Board) (m0 : Fin 3 × Fin 3)
    (hp : b.player ≠ Players.unplayed)
    (hm0 : m0 ∈ b.get_possible_moves)
    (hwin : ((b.make_move m0.1 m0.2).1).check_for_win = (true, Results.winFor b.player)) :
    ∃ pick, Negamax.get_next_move b b.player pick = Except.ok (b, m0) := by
  obtain ⟨q, hq⟩ : ∃ q, NegamaxPlayers.ofPlayers b.player = Except.ok q := by
    cases hbp : b.player
    · exact ⟨NegamaxPlayers.player, rfl⟩
    · exact ⟨NegamaxPlayers.opponent, rfl⟩
    · exact absurd hbp hp
  obtain ⟨bv2, bm2, heq, _hle0, hle1, _hsub, _hkeep, _hchanged, htopall⟩ :=
    nextMoveLoop_ok q b.get_possible_moves b NegamaxResults.worst [] hp (fun _ hx => hx)
  have htop0 : topChildValue b q m0 = Except.ok NegamaxResults.player :=
    topChildValue_immediate_win b m0 q hq hwin
  obtain ⟨hle, hmem⟩ := htopall m0 hm0 NegamaxResults.player htop0
  have hup : bv2.value ≤ 1 := hle1 (by norm_num [NegamaxResults.value])
  have hbv2 : NegamaxResults.player = bv2 := by
    apply NegamaxResults.value_inj
    have h2 : NegamaxResults.player.value = 1 := rfl
    omega
  have hm0mem : m0 ∈ bm2 := hmem hbv2
  obtain ⟨i, hi⟩ := List.get_of_mem hm0mem
  have hlen : bm2.length ≠ 0 := by
    intro h0
    rw [List.length_eq_zero] at h0
    subst h0
    simp at hm0mem
  refine ⟨i.val, ?_⟩
  simp only [Negamax.get_next_move, hq, except_bind_ok, heq]
  rw [dif_pos hlen]
  have hidx : i.val % bm2.length = i.val := Nat.mod_eq_of_lt i.isLt
  simp only [hidx, Fin.eta, hi]

theorem c2_witness :
    ((c2Board.make_move 0 2).1).check_for_win = (true, Results.winFor c2Board.player) ∧
    ∃ pick, Negamax.get_next_move c2Board c2Board.player pick =
      Except.ok (c2Board, ((0 : Fin 3), (2 : Fin 3))) :=
  ⟨by decide,
   c2_amended_immediate_win_returnable c2Board (0, 2) (by decide) (by decide) (by decide)⟩

/-- C4 counterexample: on a grid where X fills row 0 and O fills row 1
(reachable by playing on past X's win), some line sums to `-3` but
`check_for_win` reports PlayerOneWin, not PlayerTwoWin — refuting the
claim's unconditional "some line sums to -3 implies PlayerTwoWin". -/
theorem c4_counterexample :
    c4Board.lineSum (lineRow 1) = -3 ∧
    lineRow 1 ∈ scanLines ∧
    c4Board.check_for_win = (true, Results.player_one_win) ∧
    c4Board.check_for_win ≠ (true, Results.player_two_win) := by
  exact ⟨by decide, by decide, by decide, by decide⟩

/-- C4 (amended): `check_for_win` reports PlayerOneWin when some line sums
to +3 and no line sums to -3; PlayerTwoWin when some line sums to -3 and no
line sums to +3 (when both players have completed lines the first line in
scan order decides, see `c4_counterexample`); a tie when no line is a win
and all nine cells are occupied; and not-terminal otherwise. -/
theorem c4_amended_check (b : Board) :
    ((∃ L ∈ scanLines, b.lineSum L = 3) → (∀ L ∈ scanLines, b.lineSum L ≠ -3) →
      b.check_for_win = (true, Results.player_one_win)) ∧
    ((∃ L ∈ scanLines, b.lineSum L = -3) → (∀ L ∈ scanLines, b.lineSum L ≠ 3) →
      b.check_for_win = (true, Results.player_two_win)) ∧
    ((∀ L ∈ scanLines, b.lineSum L ≠ 3 ∧ b.lineSum L ≠ -3) →
      (∀ r c : Fin 3, b.grid r c ≠ Players.unplayed) →
      b.check_for_win = (true, Results.tie)) ∧
    ((∀ L ∈ scanLines, b.lineSum L ≠ 3 ∧ b.lineSum L ≠ -3) →
      ¬(∀ r c : Fin 3, b.grid r c ≠ Players.unplayed) →
      b.check_for_win = (false, Results.no_win)) := by
  have hnone_of_all : (∀ L ∈ scanLines, b.lineSum L ≠ 3 ∧ b.lineSum L ≠ -3) →
      firstWinLine b = none := by
    intro hall
    rw [firstWinLine_eq_find b]
    apply List.find?_eq_none.mpr
    intro L hL habs
    have habs2 : (b.lineSum L).natAbs = 3 := of_decide_eq_true habs
    rcases Int.natAbs_eq_iff.mp habs2 with h3 | h3
    · exact (hall L hL).1 (by exact_mod_cast h3)
    · exact (hall L hL).2 (by exact_mod_cast h3)
  refine ⟨?_, ?_, ?_, ?_⟩
  · rintro ⟨L, hL, hsum⟩ hno
    rcases hf : firstWinLine b with _ | L2
    · exfalso
      have hfind := firstWinLine_eq_find b
      rw [hf] at hfind
      have := List.find?_eq_none.mp hfind.symm L hL
      simp [hsum] at this
    · obtain ⟨hc, _⟩ := check_first_some b L2 hf
      have hfind := firstWinLine_eq_find b
      rw [hf] at hfind
      have hmem := List.mem_of_find?_eq_some hfind.symm
      have habs : (b.lineSum L2).natAbs = 3 := by
        simpa using List.find?_some hfind.symm
      rcases Int.natAbs_eq_iff.mp habs with h3 | h3
      · rw [hc, h3]
        norm_num [Results.ofValueT]
      · exact absurd (by exact_mod_cast h3) (hno L2 hmem)
  · rintro ⟨L, hL, hsum⟩ hno
    rcases hf : firstWinLine b with _ | L2
    · exfalso
      have hfind := firstWinLine_eq_find b
      rw [hf] at hfind
      have := List.find?_eq_none.mp hfind.symm L hL
      simp [hsum] at this
    · obtain ⟨hc, _⟩ := check_first_some b L2 hf
      have hfind := firstWinLine_eq_find b
      rw [hf] at hfind
      have hmem := List.mem_of_find?_eq_some hfind.symm
      have habs : (b.lineSum L2).natAbs = 3 := by
        simpa using List.find?_some hfind.symm
      rcases Int.natAbs_eq_iff.mp habs with h3 | h3
      · exact absurd (by exact_mod_cast h3) (hno L2 hmem)
      · rw [hc, h3]
        norm_num [Results.ofValueT]
  · intro hall hfull
    obtain ⟨hc, _⟩ := check_first_none b (hnone_of_all hall)
    rw [hc, if_pos ((board_full_iff b).mpr hfull)]
  · intro hall hnfull
    obtain ⟨hc, _⟩ := check_first_none b (hnone_of_all hall)
    have hbf : ¬(b.board_full = true) := fun h => hnfull ((board_full_iff b).mp h)
    rw [hc, if_neg hbf]

theorem c4_witness :
    c5Board.check_for_win = (true, Results.player_one_win) ∧
    oWinBoard.check_for_win = (true, Results.player_two_win) ∧
    tieBoard.check_for_win = (true, Results.tie) ∧
    Board.init.check_for_win = (false, Results.no_win) :=
  ⟨(c4_amended_check c5Board).1 (by decide) (by decide),
   (c4_amended_check oWinBoard).2.1 (by decide) (by decide),
   (c4_amended_check tieBoard).2.2.1 (by decide) (by decide),
   (c4_amended_check Board.init).2.2.2 (by decide) (by decide)⟩

/-- C5 counterexample: on a grid where both row 0 and column 0 are filled by
X, the claimed row-then-column scan would find row 0 first, but
`get_winning_streak` returns the column's coordinates — the code checks the
column before the row at each index. -/
theorem c5_counterexample :
    claimedScanLines.find? (fun L => decide ((c5Board.lineSum L).natAbs = 3)) =
      some (lineRow 0) ∧
    c5Board.get_winning_streak = lineCol 0 ∧
    lineCol 0 ≠ lineRow 0 := by
  exact ⟨by decide, by decide, by decide⟩

/-- C5 (amended): `check_for_win` and `get_winning_streak` share one scan
order — per index 0..2 the *column* is checked before the row, then the two
diagonals — and the first winning line of that scan is exactly the line
returned by `get_winning_streak`, its sum determining `check_for_win`'s
winner; with no winning line the streak is empty. -/
theorem c5_amended_scan_agreement (b : Board) :
    (∀ L, scanLines.find? (fun L2 => decide ((b.lineSum L2).natAbs = 3)) = some L →
      b.get_winning_streak = L ∧
      b.check_for_win = (true, Results.ofValueT (b.lineSum L / 3))) ∧
    (scanLines.find? (fun L2 => decide ((b.lineSum L2).natAbs = 3)) = none →
      b.get_winning_streak = []) := by
  constructor
  · intro L hL
    have hf : firstWinLine b = some L := by rw [firstWinLine_eq_find b]; exact hL
    obtain ⟨hc, hs⟩ := check_first_some b L hf
    exact ⟨hs, hc⟩
  · intro hL
    have hf : firstWinLine b = none := by rw [firstWinLine_eq_find b]; exact hL
    exact (check_first_none b hf).2

theorem c5_witness :
    c5Board.get_winning_streak = lineCol 0 ∧
    c5Board.check_for_win = (true, Results.ofValueT (c5Board.lineSum (lineCol 0) / 3)) :=
  (c5_amended_scan_agreement c5Board).1 (lineCol 0) (by decide)
